import Mathlib

/-!
Thumbnail handler (`functions/index.js`)

A shallow embedding of `exports.generateThumbnail` together with the library
routines its result depends on:

* Node's POSIX `path.basename`, `path.dirname`, `path.join`, `path.normalize`
  and the internal `normalizeString` (Cloud Functions run on Linux, so `path`
  is `path.posix`);
* the output geometry of `sharp(...).resize({width, height, withoutEnlargement})`
  (`ResolveShrink` and the crop stage of sharp's pipeline).

JavaScript strings are modelled as lists of characters (the routines below only
look for `/` and `.` and cut at the positions found), `undefined` by
`JSVal.undefined`, a rejected promise / thrown exception by `Except.error`,
and the `double` scale factors of the resize pipeline by exact ratios.
The object store and the image codec are parameters (`Env`); every call made
to them is recorded, in order, in the list of effects the handler returns.
-/

namespace Thumbnail

/-! ## JavaScript values and string primitives -/

/-- JavaScript string. -/
abbrev Str := List Char

/-- Byte buffer. -/
abbrev Bytes := List Nat

/-- The values an event field can hold: a string, or nothing at all. -/
inductive JSVal where
  | undefined
  | str (s : Str)
  deriving DecidableEq, Repr

/-- Exceptions: a `TypeError` raised by the language or by Node's argument
validation, or an error raised by a library call (store, codec). -/
inductive JSError where
  | typeError (msg : String)
  | libraryError (code : Nat)
  deriving DecidableEq, Repr

deriving instance DecidableEq for Except

/-- `String.prototype.startsWith(searchString)` on a string receiver. -/
def startsWith (s pre : Str) : Bool :=
  pre.isPrefixOf s

/-- Method call `v.startsWith(pre)`: reading a property of `undefined` throws. -/
def callStartsWith (v : JSVal) (pre : Str) : Except JSError Bool :=
  match v with
  | JSVal.undefined =>
      Except.error (JSError.typeError "Cannot read properties of undefined (reading 'startsWith')")
  | JSVal.str s => Except.ok (startsWith s pre)

/-- `String.prototype.slice(start, end)` for non-negative `start`, `end`. -/
def slice (s : Str) (start stop : Nat) : Str :=
  (s.take stop).drop start

/-- `String.prototype.charCodeAt(i)`; `none` stands for `NaN` (index out of range). -/
def charCodeAt (s : Str) (i : Int) : Option Char :=
  if i < 0 then none else s[i.toNat]?

/-- Auxiliary scan for `lastIndexOf`: the greatest index `< n` holding `c`, or `-1`. -/
def lastIndexOfFrom (s : Str) (c : Char) : Nat → Int
  | 0 => -1
  | n + 1 => if s[n]? = some c then (n : Int) else lastIndexOfFrom s c n

/-- `String.prototype.lastIndexOf(c)` for a one-character search string. -/
def lastIndexOf (s : Str) (c : Char) : Int :=
  lastIndexOfFrom s c s.length

/-- Node's `validateString(value, name)`. -/
def validateString (v : JSVal) (name : String) : Except JSError Str :=
  match v with
  | JSVal.str s => Except.ok s
  | JSVal.undefined =>
      Except.error (JSError.typeError ("The \"" ++ name ++ "\" argument must be of type string. Received undefined"))

/-! ## Node `path.posix` -/

/-- `CHAR_FORWARD_SLASH`. -/
def CHAR_FORWARD_SLASH : Char := '/'

/-- `CHAR_DOT`. -/
def CHAR_DOT : Char := '.'

/-- `isPosixPathSeparator(code)`. -/
def isPosixPathSeparator (code : Char) : Bool :=
  code = CHAR_FORWARD_SLASH

/-- Loop variables of `normalizeString`. -/
structure NormState where
  res : Str
  lastSegmentLength : Int
  lastSlash : Int
  dots : Int
  deriving DecidableEq, Repr

/-- The tail of the `dots === 2` branch of `normalizeString`: the
`if (allowAboveRoot)` block followed by `lastSlash = i; dots = 0`. -/
def normalizeAboveRoot (allowAboveRoot : Bool) (i : Nat) (st : NormState) : NormState :=
  if allowAboveRoot then
    { res := if st.res.length > 0 then st.res ++ CHAR_FORWARD_SLASH :: [CHAR_DOT, CHAR_DOT]
             else [CHAR_DOT, CHAR_DOT],
      lastSegmentLength := 2, lastSlash := i, dots := 0 }
  else
    { st with lastSlash := i, dots := 0 }

/-- One iteration of the `for` loop of `normalizeString`, at index `i`, once
`code` has been determined. -/
def normalizeStep (path : Str) (allowAboveRoot : Bool) (i : Nat) (code : Char)
    (st : NormState) : NormState :=
  if isPosixPathSeparator code then
    if st.lastSlash = (i : Int) - 1 ∨ st.dots = 1 then
      -- NOOP
      { st with lastSlash := i, dots := 0 }
    else if st.dots = 2 then
      if st.res.length < 2 ∨ st.lastSegmentLength ≠ 2 ∨
          charCodeAt st.res ((st.res.length : Int) - 1) ≠ some CHAR_DOT ∨
          charCodeAt st.res ((st.res.length : Int) - 2) ≠ some CHAR_DOT then
        if st.res.length > 2 then
          let lastSlashIndex := lastIndexOf st.res CHAR_FORWARD_SLASH
          if lastSlashIndex = -1 then
            { res := [], lastSegmentLength := 0, lastSlash := i, dots := 0 }
          else
            let res := slice st.res 0 lastSlashIndex.toNat
            { res := res,
              lastSegmentLength := (res.length : Int) - 1 - lastIndexOf res CHAR_FORWARD_SLASH,
              lastSlash := i, dots := 0 }
        else if st.res.length ≠ 0 then
          { res := [], lastSegmentLength := 0, lastSlash := i, dots := 0 }
        else normalizeAboveRoot allowAboveRoot i st
      else normalizeAboveRoot allowAboveRoot i st
    else
      { res := if st.res.length > 0
                 then st.res ++ CHAR_FORWARD_SLASH :: slice path (st.lastSlash + 1).toNat i
                 else slice path (st.lastSlash + 1).toNat i,
        lastSegmentLength := (i : Int) - st.lastSlash - 1,
        lastSlash := i, dots := 0 }
  else if code = CHAR_DOT ∧ st.dots ≠ -1 then
    { st with dots := st.dots + 1 }
  else
    { st with dots := -1 }

/-- The iterations `i < path.length` of `normalizeString`: `rest` holds the
characters from index `i` on, `code` the character read last. -/
def normalizeLoop (path : Str) (allowAboveRoot : Bool) :
    Str → Nat → Char → NormState → Char × NormState
  | [], _, code, st => (code, st)
  | c :: rest, i, _, st =>
      normalizeLoop path allowAboveRoot rest (i + 1) c (normalizeStep path allowAboveRoot i c st)

/-- Node's `normalizeString(path, allowAboveRoot, '/', isPosixPathSeparator)`.
After the characters, the loop runs once more at `i = path.length`: it stops if
the last character read was a separator and otherwise acts as on a separator. -/
def normalizeString (path : Str) (allowAboveRoot : Bool) : Str :=
  let r := normalizeLoop path allowAboveRoot path 0 (Char.ofNat 0)
    { res := [], lastSegmentLength := 0, lastSlash := -1, dots := 0 }
  if isPosixPathSeparator r.1 then r.2.res
  else (normalizeStep path allowAboveRoot path.length CHAR_FORWARD_SLASH r.2).res

/-- `path.posix.normalize` on a string. -/
def normalizeStr (path : Str) : Str :=
  if path.length = 0 then ['.']
  else
    let isAbsolute := decide (charCodeAt path 0 = some CHAR_FORWARD_SLASH)
    let trailingSeparator :=
      decide (charCodeAt path ((path.length : Int) - 1) = some CHAR_FORWARD_SLASH)
    let path := normalizeString path (!isAbsolute)
    if path.length = 0 then
      if isAbsolute then ['/']
      else if trailingSeparator then ['.', '/'] else ['.']
    else
      let path := if trailingSeparator then path ++ ['/'] else path
      if isAbsolute then '/' :: path else path

/-- `path.posix.normalize(path)`. -/
def normalize (path : JSVal) : Except JSError Str := do
  let path ← validateString path "path"
  pure (normalizeStr path)

/-- Loop variables of `basename`. -/
structure BasenameState where
  start : Nat
  end_ : Int
  matchedSlash : Bool
  deriving DecidableEq, Repr

/-- The loop `for (let i = path.length - 1; i >= 0; --i)` of `basename`; the
first argument is `i + 1`. -/
def basenameLoop (path : Str) : Nat → BasenameState → BasenameState
  | 0, st => st
  | i + 1, st =>
      if path[i]? = some CHAR_FORWARD_SLASH then
        if !st.matchedSlash then { st with start := i + 1 }
        else basenameLoop path i st
      else if st.end_ = -1 then
        basenameLoop path i { st with matchedSlash := false, end_ := (i : Int) + 1 }
      else basenameLoop path i st

/-- `path.posix.basename(path)` on a string (no suffix argument). -/
def basenameStr (path : Str) : Str :=
  let st := basenameLoop path path.length { start := 0, end_ := -1, matchedSlash := true }
  if st.end_ = -1 then [] else slice path st.start st.end_.toNat

/-- `path.posix.basename(path)`. -/
def basename (path : JSVal) : Except JSError Str := do
  let path ← validateString path "path"
  pure (basenameStr path)

/-- Loop variables of `dirname`. -/
structure DirnameState where
  end_ : Int
  matchedSlash : Bool
  deriving DecidableEq, Repr

/-- The loop `for (let i = path.length - 1; i >= 1; --i)` of `dirname`; the
first argument is `i + 1`. -/
def dirnameLoop (path : Str) : Nat → DirnameState → DirnameState
  | 0, st => st
  | 1, st => st
  | i + 1, st =>
      if path[i]? = some CHAR_FORWARD_SLASH then
        if !st.matchedSlash then { st with end_ := i }
        else dirnameLoop path i st
      else dirnameLoop path i { st with matchedSlash := false }

/-- `path.posix.dirname(path)` on a string. -/
def dirnameStr (path : Str) : Str :=
  if path.length = 0 then ['.']
  else
    let hasRoot := decide (charCodeAt path 0 = some CHAR_FORWARD_SLASH)
    let st := dirnameLoop path path.length { end_ := -1, matchedSlash := true }
    if st.end_ = -1 then (if hasRoot then ['/'] else ['.'])
    else if hasRoot ∧ st.end_ = 1 then ['/', '/']
    else slice path 0 st.end_.toNat

/-- `path.posix.dirname(path)`. -/
def dirname (path : JSVal) : Except JSError Str := do
  let path ← validateString path "path"
  pure (dirnameStr path)

/-- The argument loop of `join`: each argument is validated, the non-empty
ones are concatenated with `/`; `joined` is `none` while it is `undefined`. -/
def joinLoop : List JSVal → Option Str → Except JSError (Option Str)
  | [], joined => pure joined
  | v :: args, joined => do
      let arg ← validateString v "path"
      if arg.length > 0 then
        match joined with
        | none => joinLoop args (some arg)
        | some j => joinLoop args (some (j ++ CHAR_FORWARD_SLASH :: arg))
      else joinLoop args joined

/-- `path.posix.join(...args)`. -/
def join (args : List JSVal) : Except JSError Str :=
  if args.length = 0 then pure ['.']
  else do
    match (← joinLoop args none) with
    | none => pure ['.']
    | some joined => pure (normalizeStr joined)

/-! ## sharp: output geometry of `resize` -/

/-- A non-negative ratio `num / den`, standing for one of the `double` scale
factors of the resize pipeline. -/
structure Factor where
  num : Nat
  den : Nat
  deriving DecidableEq, Repr

/-- Comparison `a < b` of two ratios (positive denominators). -/
def Factor.lt (a b : Factor) : Bool :=
  decide (a.num * b.den < b.num * a.den)

/-- `std::min(a, b)`. -/
def Factor.min (a b : Factor) : Factor :=
  if b.lt a then b else a

/-- `std::max(a, b)`. -/
def Factor.max (a b : Factor) : Factor :=
  if a.lt b then b else a

/-- The ratio `1.0`. -/
def Factor.one : Factor := { num := 1, den := 1 }

/-- `a / b` rounded to the nearest integer. -/
def roundDiv (a b : Nat) : Nat :=
  (2 * a + b) / (2 * b)

/-- `n / f` rounded to the nearest integer: the size of an axis of `n` pixels
after shrinking by the factor `f`. -/
def Factor.shrink (f : Factor) (n : Nat) : Nat :=
  roundDiv (n * f.den) f.num

/-- `n * f` rounded to the nearest integer. -/
def Factor.scale (f : Factor) (n : Nat) : Nat :=
  roundDiv (n * f.num) f.den

/-- sharp's canvas modes; the `fit` option of `resize` selects one
(`cover` is `crop`, `contain` is `embed`, `fill` is `ignoreAspect`,
`inside` is `max`, `outside` is `min`). -/
inductive Canvas where
  | crop
  | embed
  | max
  | min
  | ignoreAspect
  deriving DecidableEq, Repr

/-- The options object of `sharp().resize(options)`; `0` stands for an
unspecified width or height.  The defaults are the library's: `fit: 'cover'`,
`withoutEnlargement: false`, `withoutReduction: false`. -/
structure ResizeOptions where
  width : Nat := 0
  height : Nat := 0
  canvas : Canvas := Canvas.crop
  withoutEnlargement : Bool := false
  withoutReduction : Bool := false
  deriving DecidableEq, Repr

/-- sharp's `ResolveShrink(width, height, targetWidth, targetHeight, canvas,
withoutEnlargement, withoutReduction)` (`src/common.cc`): the horizontal and
vertical shrink factors. -/
def resolveShrink (width height targetWidth targetHeight : Nat) (canvas : Canvas)
    (withoutEnlargement withoutReduction : Bool) : Factor × Factor :=
  let hv : Factor × Factor :=
    if targetWidth > 0 ∧ targetHeight > 0 then
      -- Fixed width and height
      let hshrink : Factor := { num := width, den := targetWidth }
      let vshrink : Factor := { num := height, den := targetHeight }
      match canvas with
      | Canvas.crop | Canvas.min =>
          if hshrink.lt vshrink then (hshrink, hshrink) else (vshrink, vshrink)
      | Canvas.embed | Canvas.max =>
          if vshrink.lt hshrink then (hshrink, hshrink) else (vshrink, vshrink)
      | Canvas.ignoreAspect => (hshrink, vshrink)
    else if targetWidth > 0 then
      -- Fixed width
      let hshrink : Factor := { num := width, den := targetWidth }
      if canvas ≠ Canvas.ignoreAspect then (hshrink, hshrink) else (hshrink, Factor.one)
    else if targetHeight > 0 then
      -- Fixed height
      let vshrink : Factor := { num := height, den := targetHeight }
      if canvas ≠ Canvas.ignoreAspect then (vshrink, vshrink) else (Factor.one, vshrink)
    else (Factor.one, Factor.one)
  let hv : Factor × Factor :=
    if withoutReduction then (Factor.min Factor.one hv.1, Factor.min Factor.one hv.2)
    else if withoutEnlargement then (Factor.max Factor.one hv.1, Factor.max Factor.one hv.2)
    else hv
  -- We don't want to shrink so much that we send an axis to 0
  (Factor.min hv.1 { num := width, den := 1 }, Factor.min hv.2 { num := height, den := 1 })

/-- sharp's default `limitInputPixels`, `Math.pow(0x3FFF, 2)`: an input with
more pixels is refused. -/
def limitInputPixels : Nat := 0x3FFF * 0x3FFF

/-- The test `shrink == 1.0`. -/
def Factor.isOne (f : Factor) : Bool :=
  decide (f.num = f.den)

/-- What the resize pipeline does to the geometry of an image: the two shrink
factors, the size after the resize stage, and the size of the output after the
crop/embed stage. -/
structure ResizeGeometry where
  hshrink : Factor
  vshrink : Factor
  resizedWidth : Nat
  resizedHeight : Nat
  width : Nat
  height : Nat
  deriving DecidableEq, Repr

/-- The geometry of `sharp(input).resize(opts).toBuffer()` for a decoded input
of `w` by `h` pixels when both target dimensions are given (sharp 0.32/0.33,
`src/common.cc` and `src/pipeline.cc`).  An input above `limitInputPixels` is
refused with an error.  Otherwise the image is resized by the factors of
`resolveShrink` (each axis rounded to the nearest pixel); then, if its size is
not the target size, canvas `crop` extracts a window of at most the target size
and canvas `embed` pads up to it.  Shrink-on-load, a decoder shortcut that can
move the intermediate size by a pixel, is not modelled. -/
def resizeGeometry (opts : ResizeOptions) (w h : Nat) : Except String ResizeGeometry :=
  if w * h > limitInputPixels then
    Except.error "Input image exceeds pixel limit"
  else
    let hv := resolveShrink w h opts.width opts.height opts.canvas
      opts.withoutEnlargement opts.withoutReduction
    let shouldResize := !hv.1.isOne || !hv.2.isOne
    let imageWidth := if shouldResize then hv.1.shrink w else w
    let imageHeight := if shouldResize then hv.2.shrink h else h
    let out : Nat × Nat :=
      if imageWidth ≠ opts.width ∨ imageHeight ≠ opts.height then
        match opts.canvas with
        | Canvas.crop => (min imageWidth opts.width, min imageHeight opts.height)
        | Canvas.embed => (max imageWidth opts.width, max imageHeight opts.height)
        | _ => (imageWidth, imageHeight)
      else (imageWidth, imageHeight)
    Except.ok { hshrink := hv.1, vshrink := hv.2, resizedWidth := imageWidth,
                resizedHeight := imageHeight, width := out.1, height := out.2 }

/-! ## The handler -/

/-- The fields of `event.data` the handler reads. -/
structure EventData where
  bucket : Str
  name : JSVal
  contentType : JSVal
  deriving DecidableEq, Repr

/-- What the handler does to the outside world, in order. -/
inductive Effect where
  | log (msg : String)
  | download (bucket : Str) (filePath : JSVal)
  | resize (input : Bytes) (opts : ResizeOptions)
  | save (bucket : Str) (filePath : Str) (data : Bytes) (contentType : JSVal)
  deriving DecidableEq, Repr

/-- The collaborators: `bucket.file(p).download()`, `sharp(b).resize(o).toBuffer()`
and `bucket.file(p).save(data, {metadata: {contentType}})`.  Each either
returns or throws. -/
structure Env where
  download : Str → JSVal → Except JSError Bytes
  resize : Bytes → ResizeOptions → Except JSError Bytes
  save : Str → Str → Bytes → JSVal → Except JSError Unit

/-- The argument of the handler's `resize` call. -/
def thumbnailOptions : ResizeOptions :=
  { width := 200, height := 200, withoutEnlargement := true }

/-- The literal `"image/"`. -/
def imageType : Str := ['i', 'm', 'a', 'g', 'e', '/']

/-- The literal `"thumb_"`. -/
def thumbTag : Str := ['t', 'h', 'u', 'm', 'b', '_']

/-- The lines `thumbFileName = "thumb_" + fileName` and
`thumbFilePath = path.join(path.dirname(filePath), thumbFileName)`. -/
def thumbFilePath (filePath : JSVal) (fileName : Str) : Except JSError Str := do
  let thumbFileName := thumbTag ++ fileName
  let dir ← dirname filePath
  join [JSVal.str dir, JSVal.str thumbFileName]

/-- The handler `exports.generateThumbnail`: the effects it performs and the
outcome of the promise it returns (`ok` when it resolves, `error` when it
rejects). -/
def generateThumbnail (env : Env) (data : EventData) : List Effect × Except JSError Unit :=
  let fileBucket := data.bucket
  let filePath := data.name
  let contentType := data.contentType
  match callStartsWith contentType imageType with
  | Except.error e => ([], Except.error e)
  | Except.ok isImage =>
    if !isImage then
      ([Effect.log "這不是一張圖片。"], Except.ok ())
    else
      match basename filePath with
      | Except.error e => ([], Except.error e)
      | Except.ok fileName =>
        if startsWith fileName thumbTag then
          ([Effect.log "已經是縮略圖。"], Except.ok ())
        else
          match env.download fileBucket filePath with
          | Except.error e => ([Effect.download fileBucket filePath], Except.error e)
          | Except.ok imageBuffer =>
            match env.resize imageBuffer thumbnailOptions with
            | Except.error e =>
                ([Effect.download fileBucket filePath, Effect.log "圖片已下載！",
                  Effect.resize imageBuffer thumbnailOptions], Except.error e)
            | Except.ok thumbnailBuffer =>
              match thumbFilePath filePath fileName with
              | Except.error e =>
                  ([Effect.download fileBucket filePath, Effect.log "圖片已下載！",
                    Effect.resize imageBuffer thumbnailOptions, Effect.log "縮略圖已創建"],
                   Except.error e)
              | Except.ok thumbPath =>
                match env.save fileBucket thumbPath thumbnailBuffer contentType with
                | Except.error e =>
                    ([Effect.download fileBucket filePath, Effect.log "圖片已下載！",
                      Effect.resize imageBuffer thumbnailOptions, Effect.log "縮略圖已創建",
                      Effect.save fileBucket thumbPath thumbnailBuffer contentType],
                     Except.error e)
                | Except.ok _ =>
                    ([Effect.download fileBucket filePath, Effect.log "圖片已下載！",
                      Effect.resize imageBuffer thumbnailOptions, Effect.log "縮略圖已創建",
                      Effect.save fileBucket thumbPath thumbnailBuffer contentType,
                      Effect.log "縮略圖已上傳！"],
                     Except.ok ())

/-! ## Specification-side definitions -/

/-- The thumbnail size as the specification words it: `scale = min(maxWidth/w,
maxHeight/h, 1)` and the output is `round(w*scale)` by `round(h*scale)`. -/
def specDims (maxWidth maxHeight w h : Nat) : Nat × Nat :=
  let scale := Factor.min (Factor.min { num := maxWidth, den := w } { num := maxHeight, den := h })
    Factor.one
  (scale.scale w, scale.scale h)

/-- Calls to the object store: downloads and uploads. -/
def Effect.isStoreCall : Effect → Bool
  | Effect.download _ _ => true
  | Effect.save _ _ _ _ => true
  | _ => false

/-- Uploads. -/
def Effect.isSave : Effect → Bool
  | Effect.save _ _ _ _ => true
  | _ => false

/-- A store and codec that always succeed, for concrete runs of the handler. -/
def sampleEnv : Env :=
  { download := fun _ _ => Except.ok [1, 2, 3]
    resize := fun _ _ => Except.ok [4]
    save := fun _ _ _ _ => Except.ok () }

/-- A store whose download fails. -/
def failingDownloadEnv : Env :=
  { download := fun _ _ => Except.error (JSError.libraryError 503)
    resize := fun _ _ => Except.ok [4]
    save := fun _ _ _ _ => Except.ok () }

/-- The event of scenario 1: `photos/cat.jpg`, a JPEG, in bucket `b`. -/
def catEvent : EventData :=
  { bucket := "b".toList, name := JSVal.str "photos/cat.jpg".toList,
    contentType := JSVal.str "image/jpeg".toList }

/-! ## Auxiliary definitions for the path lemmas -/

/-- The value of `dots` after reading the characters `cs` (none a separator),
starting from `d`. -/
def dotsAfter : Int → Str → Int
  | d, [] => d
  | d, c :: cs => dotsAfter (if c = CHAR_DOT ∧ d ≠ -1 then d + 1 else -1) cs

/-- The `else` branch of `normalizeString`: append a segment to `res`. -/
def appendSeg (res seg : Str) : Str :=
  if res.length > 0 then res ++ CHAR_FORWARD_SLASH :: seg else seg

/-- The initial loop state of `normalizeString`. -/
def normInit : NormState :=
  { res := [], lastSegmentLength := 0, lastSlash := -1, dots := 0 }

/-- A path segment that `normalize` keeps as it is: non-empty, without
separator, and neither `.` nor `..`. -/
def cleanSegment (s : Str) : Prop :=
  s ≠ [] ∧ CHAR_FORWARD_SLASH ∉ s ∧ s ≠ [CHAR_DOT] ∧ s ≠ [CHAR_DOT, CHAR_DOT]

instance (s : Str) : Decidable (cleanSegment s) := by
  unfold cleanSegment; infer_instance

/-- The segments of a path: the pieces between its separators. -/
def segments (p : Str) : List Str :=
  p.splitOn CHAR_FORWARD_SLASH

/-- A path made of segments joined by single separators. -/
def joinSegments (segs : List Str) : Str :=
  List.intercalate [CHAR_FORWARD_SLASH] segs

/-- A clean path: every segment is non-empty and neither `.` nor `..`; so the
path is relative and has no leading, trailing or repeated separator. -/
def cleanPath (p : Str) : Prop :=
  ∀ s ∈ segments p, cleanSegment s

instance (p : Str) : Decidable (cleanPath p) := by
  unfold cleanPath; infer_instance

/-! ## Lemmas on `dirname` and `join` -/

theorem dirnameLoop_end (path : Str) (n : Nat) (st : DirnameState)
    (h : st.end_ = -1 ∨ (1 ≤ st.end_ ∧ st.end_ < path.length)) (hn : n ≤ path.length) :
    (dirnameLoop path n st).end_ = -1 ∨
      (1 ≤ (dirnameLoop path n st).end_ ∧ (dirnameLoop path n st).end_ < path.length) := by
  induction n generalizing st with
  | zero => simpa [dirnameLoop] using h
  | succ i ih =>
    cases i with
    | zero => simpa [dirnameLoop] using h
    | succ j =>
      rw [dirnameLoop]
      · split
        · split
          · right; simp; omega
          · exact ih st h (by omega)
        · exact ih _ (by simpa using h) (by omega)
      · simp

theorem dirnameStr_ne_nil (path : Str) : dirnameStr path ≠ [] := by
  unfold dirnameStr
  split
  · simp
  · rename_i hlen
    simp only
    split
    · split <;> simp
    · rename_i hend
      split
      · simp
      · have h := dirnameLoop_end path path.length { end_ := -1, matchedSlash := true }
          (Or.inl rfl) (le_refl _)
        rcases h with h | ⟨h1, h2⟩
        · exact absurd h hend
        · intro hnil
          have hl := congrArg List.length hnil
          simp [slice] at hl
          rcases hl with hl | hl
          · omega
          · exact hlen (by simp [hl])

theorem thumbFilePath_str (p fileName : Str) :
    thumbFilePath (JSVal.str p) fileName
      = Except.ok (normalizeStr (dirnameStr p ++ CHAR_FORWARD_SLASH :: (thumbTag ++ fileName))) := by
  have hd := dirnameStr_ne_nil p
  have hd2 : 0 < (dirnameStr p).length := List.length_pos.mpr hd
  simp [thumbFilePath, dirname, validateString, join, joinLoop, bind, Except.bind, pure,
    Except.pure, hd2, thumbTag]

theorem generateThumbnail_skips_thumbnail_aux (env : Env) (bucket p c : Str)
    (hc : startsWith c imageType = true)
    (hp : startsWith (basenameStr p) thumbTag = true) :
    generateThumbnail env { bucket := bucket, name := JSVal.str p, contentType := JSVal.str c }
      = ([Effect.log "已經是縮略圖。"], Except.ok ()) := by
  simp [generateThumbnail, callStartsWith, hc, basename, validateString, hp, bind, Except.bind,
    pure, Except.pure]

/-! ## Lemmas on `normalizeString` -/

theorem normalizeLoop_append (path : Str) (allow : Bool) (xs ys : Str) (i : Nat) (code : Char)
    (st : NormState) :
    normalizeLoop path allow (xs ++ ys) i code st
      = normalizeLoop path allow ys (i + xs.length)
          (normalizeLoop path allow xs i code st).1 (normalizeLoop path allow xs i code st).2 := by
  induction xs generalizing i code st with
  | nil => simp [normalizeLoop]
  | cons c cs ih =>
    rw [List.cons_append, normalizeLoop, ih, normalizeLoop, List.length_cons]
    congr 1
    omega

theorem normalizeStep_sep_lastSlash (path : Str) (allow : Bool) (i : Nat) (st : NormState) :
    (normalizeStep path allow i CHAR_FORWARD_SLASH st).lastSlash = i ∧
      (normalizeStep path allow i CHAR_FORWARD_SLASH st).dots = 0 := by
  unfold normalizeStep normalizeAboveRoot
  simp only [isPosixPathSeparator, decide_True, if_true]
  split_ifs <;> simp

theorem normalizeStep_nonsep (path : Str) (allow : Bool) (i : Nat) (c : Char) (st : NormState)
    (hc : c ≠ CHAR_FORWARD_SLASH) :
    normalizeStep path allow i c st
      = { st with dots := if c = CHAR_DOT ∧ st.dots ≠ -1 then st.dots + 1 else -1 } := by
  unfold normalizeStep
  simp only [isPosixPathSeparator, hc, decide_False]
  split_ifs <;> simp_all

theorem normalizeLoop_segment (path : Str) (allow : Bool) (s : Str) (i : Nat) (code : Char)
    (st : NormState) (hs : CHAR_FORWARD_SLASH ∉ s) :
    normalizeLoop path allow s i code st
      = (s.getLast?.getD code, { st with dots := dotsAfter st.dots s }) := by
  induction s generalizing i code st with
  | nil => simp [normalizeLoop, dotsAfter]
  | cons c cs ih =>
    have hc : c ≠ CHAR_FORWARD_SLASH := fun h => hs (by simp [h])
    have hcs : CHAR_FORWARD_SLASH ∉ cs := fun h => hs (by simp [h])
    rw [normalizeLoop, ih _ _ _ hcs, normalizeStep_nonsep path allow i c st hc]
    simp only [dotsAfter]
    congr 1
    cases cs with
    | nil => simp
    | cons d ds =>
      cases h : (d :: ds).getLast? with
      | none => simp at h
      | some x => simp [List.getLast?_cons_cons, h]

theorem dotsAfter_neg_one (s : Str) : dotsAfter (-1) s = -1 := by
  induction s with
  | nil => rfl
  | cons c cs ih => simpa [dotsAfter] using ih

theorem dotsAfter_cases (d : Int) (hd : 0 ≤ d) (s : Str) :
    dotsAfter d s = -1 ∨ (dotsAfter d s = d + s.length ∧ ∀ c ∈ s, c = CHAR_DOT) := by
  induction s generalizing d with
  | nil => right; simp [dotsAfter]
  | cons c cs ih =>
    simp only [dotsAfter]
    by_cases hc : c = CHAR_DOT
    · have hd1 : d ≠ -1 := by omega
      simp only [hc, hd1, ne_eq, not_false_eq_true, and_self, if_true]
      rcases ih (d + 1) (by omega) with h | ⟨h1, h2⟩
      · exact Or.inl h
      · right
        refine ⟨by rw [h1]; simp; omega, ?_⟩
        intro x hx
        rcases List.mem_cons.mp hx with rfl | hx
        · rfl
        · exact h2 x hx
    · simp only [hc, false_and, if_false]
      exact Or.inl (dotsAfter_neg_one cs)

theorem dotsAfter_clean (s : Str) (hs : cleanSegment s) :
    dotsAfter 0 s ≠ 1 ∧ dotsAfter 0 s ≠ 2 := by
  obtain ⟨hne, _, h1, h2⟩ := hs
  rcases dotsAfter_cases 0 (le_refl _) s with h | ⟨hlen, hall⟩
  · rw [h]; constructor <;> decide
  · rw [hlen]
    constructor
    · intro h
      apply h1
      match s, hall, h with
      | [c], hall, _ => simp [hall c (by simp)]
      | [], _, h => simp at h
      | _ :: _ :: _, _, h => simp at h; omega
    · intro h
      apply h2
      match s, hall, h with
      | [c, d], hall, _ => simp [hall c (by simp), hall d (by simp)]
      | [], _, h => simp at h
      | [_], _, h => simp at h
      | _ :: _ :: _ :: _, _, h => simp at h; omega

theorem normalizeStep_sep_segment (path : Str) (allow : Bool) (i0 : Nat) (s : Str)
    (st : NormState) (hs : s ≠ []) (hls : st.lastSlash = (i0 : Int) - 1)
    (hd1 : st.dots ≠ 1) (hd2 : st.dots ≠ 2)
    (hslice : slice path i0 (i0 + s.length) = s) :
    normalizeStep path allow (i0 + s.length) CHAR_FORWARD_SLASH st
      = { res := appendSeg st.res s, lastSegmentLength := s.length,
          lastSlash := ((i0 + s.length : Nat) : Int), dots := 0 } := by
  have hlen : 0 < s.length := List.length_pos.mpr hs
  have hne : ¬ (st.lastSlash = ((i0 + s.length : Nat) : Int) - 1) := by
    rw [hls]; push_cast; omega
  have htn : (st.lastSlash + 1).toNat = i0 := by rw [hls]; simp
  unfold normalizeStep
  simp only [isPosixPathSeparator, decide_True, if_true, hne, hd1, hd2, or_self, if_false, htn,
    hslice, appendSeg]
  congr 1
  rw [hls]; push_cast; omega

/-- Reading a clean segment and then a separator (or the end of the path)
appends the segment to `res`. -/
theorem normalizeLoop_clean_segment (path : Str) (allow : Bool) (i0 : Nat) (s : Str)
    (code : Char) (st : NormState) (hs : cleanSegment s)
    (hls : st.lastSlash = (i0 : Int) - 1) (hd : st.dots = 0)
    (hslice : slice path i0 (i0 + s.length) = s) :
    (normalizeLoop path allow s i0 code st).1 ≠ CHAR_FORWARD_SLASH ∧
    normalizeStep path allow (i0 + s.length) CHAR_FORWARD_SLASH
        (normalizeLoop path allow s i0 code st).2
      = { res := appendSeg st.res s, lastSegmentLength := s.length,
          lastSlash := ((i0 + s.length : Nat) : Int), dots := 0 } := by
  rw [normalizeLoop_segment path allow s i0 code st hs.2.1]
  constructor
  · obtain ⟨hne, hsl, _, _⟩ := hs
    cases h : s.getLast? with
    | none => simp at h; exact absurd h hne
    | some x =>
      simp only [Option.getD_some]
      intro hx
      exact hsl (hx ▸ List.mem_of_mem_getLast? (by simp [h]))
  · have h12 := dotsAfter_clean s hs
    have := normalizeStep_sep_segment path allow i0 s { st with dots := dotsAfter st.dots s }
      hs.1 hls (by simpa [hd] using h12.1) (by simpa [hd] using h12.2) hslice
    simpa using this

theorem slice_append_mid (pre s post : Str) :
    slice (pre ++ s ++ post) pre.length (pre.length + s.length) = s := by
  simp [slice, List.take_append_eq_append_take, List.drop_append_eq_append_drop]

theorem normalizeLoop_sep_end (path : Str) (allow : Bool) (D : Str) (code : Char)
    (st : NormState) :
    (normalizeLoop path allow (D ++ [CHAR_FORWARD_SLASH]) 0 code st).2.lastSlash = D.length ∧
      (normalizeLoop path allow (D ++ [CHAR_FORWARD_SLASH]) 0 code st).2.dots = 0 := by
  rw [normalizeLoop_append]
  simp only [normalizeLoop, Nat.zero_add]
  exact normalizeStep_sep_lastSlash path allow D.length _

/-- `normalizeString` on a path that ends in a separator followed by a clean
segment: the segment is appended to what the part before it produced. -/
theorem normalizeString_append_segment (D seg : Str) (allow : Bool) (hs : cleanSegment seg) :
    normalizeString (D ++ CHAR_FORWARD_SLASH :: seg) allow
      = appendSeg (normalizeLoop (D ++ CHAR_FORWARD_SLASH :: seg) allow
          (D ++ [CHAR_FORWARD_SLASH]) 0 (Char.ofNat 0) normInit).2.res seg := by
  generalize hpath : D ++ CHAR_FORWARD_SLASH :: seg = path
  have hpath2 : path = (D ++ [CHAR_FORWARD_SLASH]) ++ seg ++ [] := by simp [← hpath]
  have hlen : path.length = (D.length + 1) + seg.length := by
    rw [← hpath]; simp; omega
  have hloop : normalizeLoop path allow path 0 (Char.ofNat 0) normInit
      = normalizeLoop path allow seg (D.length + 1)
          (normalizeLoop path allow (D ++ [CHAR_FORWARD_SLASH]) 0 (Char.ofNat 0) normInit).1
          (normalizeLoop path allow (D ++ [CHAR_FORWARD_SLASH]) 0 (Char.ofNat 0) normInit).2 := by
    conv_lhs => arg 3; rw [hpath2, List.append_nil]
    rw [normalizeLoop_append]
    simp
  obtain ⟨hls, hd⟩ := normalizeLoop_sep_end path allow D (Char.ofNat 0) normInit
  have hslice : slice path (D.length + 1) (D.length + 1 + seg.length) = seg := by
    rw [hpath2]
    have := slice_append_mid (D ++ [CHAR_FORWARD_SLASH]) seg []
    simpa using this
  obtain ⟨hcode, hstep⟩ := normalizeLoop_clean_segment path allow (D.length + 1) seg
    (normalizeLoop path allow (D ++ [CHAR_FORWARD_SLASH]) 0 (Char.ofNat 0) normInit).1
    (normalizeLoop path allow (D ++ [CHAR_FORWARD_SLASH]) 0 (Char.ofNat 0) normInit).2
    hs (by rw [hls]; push_cast; omega) hd hslice
  unfold normalizeString
  simp only [← normInit.eq_def]
  rw [hloop, hlen]
  simp only [isPosixPathSeparator, hcode, decide_False, Bool.false_eq_true, if_false, hstep]

theorem charCodeAt_last (path : Str) :
    charCodeAt path ((path.length : Int) - 1) = path.getLast? := by
  unfold charCodeAt
  cases path with
  | nil => simp
  | cons c cs =>
    have h : ¬ (((c :: cs).length : Int) - 1 < 0) := by simp
    rw [if_neg h, List.getLast?_eq_getElem?]
    congr 1
    simp

theorem cleanSegment_getLast (seg : Str) (hs : cleanSegment seg) (D : Str) :
    (D ++ seg).getLast? ≠ some CHAR_FORWARD_SLASH := by
  obtain ⟨hne, hsl, _, _⟩ := hs
  rw [List.getLast?_append_of_ne_nil _ hne]
  intro h
  exact hsl (List.mem_of_mem_getLast? (by simp [h]))

theorem appendSeg_ne_nil (res seg : Str) (hs : seg ≠ []) : appendSeg res seg ≠ [] := by
  unfold appendSeg
  split <;> simp [hs]

/-- `normalize` on a path that ends in a separator followed by a clean
segment: the result ends in that segment, which is either the whole result or
preceded by a separator. -/
theorem normalizeStr_append_segment (D seg : Str) (hs : cleanSegment seg) :
    ∃ X, normalizeStr (D ++ CHAR_FORWARD_SLASH :: seg) = X ++ seg ∧
      (X = [] ∨ ∃ Y, X = Y ++ [CHAR_FORWARD_SLASH]) := by
  have hlast : charCodeAt (D ++ CHAR_FORWARD_SLASH :: seg)
      (((D ++ CHAR_FORWARD_SLASH :: seg).length : Int) - 1) ≠ some CHAR_FORWARD_SLASH := by
    rw [charCodeAt_last]
    have := cleanSegment_getLast seg hs (D ++ [CHAR_FORWARD_SLASH])
    simpa using this
  unfold normalizeStr
  have hlen : ¬ ((D ++ CHAR_FORWARD_SLASH :: seg).length = 0) := by simp
  simp only [hlen, if_false, hlast, decide_False, Bool.false_eq_true]
  rw [normalizeString_append_segment D seg _ hs]
  have hne := appendSeg_ne_nil
    (normalizeLoop (D ++ CHAR_FORWARD_SLASH :: seg)
      (!decide (charCodeAt (D ++ CHAR_FORWARD_SLASH :: seg) 0 = some CHAR_FORWARD_SLASH))
      (D ++ [CHAR_FORWARD_SLASH]) 0 (Char.ofNat 0) normInit).2.res seg hs.1
  have hlen2 : ¬ ((appendSeg
    (normalizeLoop (D ++ CHAR_FORWARD_SLASH :: seg)
      (!decide (charCodeAt (D ++ CHAR_FORWARD_SLASH :: seg) 0 = some CHAR_FORWARD_SLASH))
      (D ++ [CHAR_FORWARD_SLASH]) 0 (Char.ofNat 0) normInit).2.res seg).length = 0) := by
    simpa using hne
  simp only [hlen2, if_false]
  generalize (normalizeLoop (D ++ CHAR_FORWARD_SLASH :: seg)
      (!decide (charCodeAt (D ++ CHAR_FORWARD_SLASH :: seg) 0 = some CHAR_FORWARD_SLASH))
      (D ++ [CHAR_FORWARD_SLASH]) 0 (Char.ofNat 0) normInit).2.res = res0
  unfold appendSeg
  by_cases hr : res0.length > 0 <;> by_cases ha : charCodeAt (D ++ CHAR_FORWARD_SLASH :: seg) 0
      = some CHAR_FORWARD_SLASH <;> simp only [hr, ha, if_true, if_false, decide_True, decide_False]
  · exact ⟨CHAR_FORWARD_SLASH :: res0 ++ [CHAR_FORWARD_SLASH], by simp [CHAR_FORWARD_SLASH],
      Or.inr ⟨CHAR_FORWARD_SLASH :: res0, rfl⟩⟩
  · exact ⟨res0 ++ [CHAR_FORWARD_SLASH], by simp, Or.inr ⟨res0, rfl⟩⟩
  · exact ⟨[CHAR_FORWARD_SLASH], by simp [CHAR_FORWARD_SLASH], Or.inr ⟨[], rfl⟩⟩
  · exact ⟨[], by simp, Or.inl rfl⟩

/-! ## Lemmas on `basename` -/

theorem basenameLoop_nonsep (path : Str) (n k : Nat) (st : BasenameState)
    (h : ∀ j, n ≤ j → j < n + k → path[j]? ≠ some CHAR_FORWARD_SLASH) :
    basenameLoop path (n + k) st = basenameLoop path n
      (if k = 0 then st
       else if st.end_ = -1 then { st with matchedSlash := false, end_ := ((n + k : Nat) : Int) }
       else st) := by
  induction k generalizing st with
  | zero => simp
  | succ k ih =>
    have hk : path[n + k]? ≠ some CHAR_FORWARD_SLASH := h (n + k) (by omega) (by omega)
    have ih2 := fun st => ih st (fun j h1 h2 => h j h1 (by omega))
    rw [← Nat.add_assoc, basenameLoop]
    simp only [hk, if_false, Nat.succ_ne_zero]
    by_cases he : st.end_ = -1
    · simp only [he, if_true]
      rw [ih2]
      have : ¬ (((n + k : Nat) : Int) + 1 = -1) := by omega
      by_cases hk0 : k = 0
      · simp [hk0]
      · simp only [hk0, if_false, this]
        push_cast
        rfl
    · simp only [he, if_false]
      rw [ih2]
      simp [he]

theorem getElem?_append_segment (X seg : Str) (hs : CHAR_FORWARD_SLASH ∉ seg) (j : Nat)
    (hj : X.length ≤ j) : (X ++ seg)[j]? ≠ some CHAR_FORWARD_SLASH := by
  rw [List.getElem?_append_right hj]
  intro h
  exact hs (List.getElem?_mem h)

/-- The basename of a path ending in a separator-free, non-empty segment that
starts the path or follows a separator is that segment. -/
theorem basenameStr_append_segment (X seg : Str) (hne : seg ≠ [])
    (hs : CHAR_FORWARD_SLASH ∉ seg) (hX : X = [] ∨ ∃ Y, X = Y ++ [CHAR_FORWARD_SLASH]) :
    basenameStr (X ++ seg) = seg := by
  have hlen : 0 < seg.length := List.length_pos.mpr hne
  have hloop := basenameLoop_nonsep (X ++ seg) X.length seg.length
    { start := 0, end_ := -1, matchedSlash := true }
    (fun j h1 _ => getElem?_append_segment X seg hs j h1)
  have hk : ¬ (seg.length = 0) := by omega
  simp only [hk, if_false, if_true] at hloop
  unfold basenameStr
  rw [List.length_append, hloop]
  rcases hX with rfl | ⟨Y, rfl⟩
  · simp [basenameLoop, slice]
  · have hY : (Y ++ [CHAR_FORWARD_SLASH] ++ seg)[Y.length]? = some CHAR_FORWARD_SLASH := by
      rw [List.append_assoc, List.getElem?_append_right (le_refl _)]
      simp
    simp only [List.length_append, List.length_singleton, basenameLoop, hY, if_true,
      Bool.not_false]
    have : ¬ ((((Y.length + 1 + seg.length : Nat)) : Int) = -1) := by omega
    simp only [this, if_false]
    have h2 := slice_append_mid (Y ++ [CHAR_FORWARD_SLASH]) seg []
    simp only [List.append_nil, List.length_append, List.length_singleton] at h2
    simpa using h2

theorem basenameStr_no_sep_path (p : Str) (hs : CHAR_FORWARD_SLASH ∉ p) : basenameStr p = p := by
  cases p with
  | nil => simp [basenameStr, basenameLoop]
  | cons c cs =>
    have := basenameStr_append_segment [] (c :: cs) (by simp) hs (Or.inl rfl)
    simpa using this

theorem basenameLoop_range (path : Str) (n : Nat) (st : BasenameState)
    (hstart : st.start = 0)
    (hinv : st.end_ = -1 ∨ (0 ≤ st.end_ ∧ st.matchedSlash = false ∧
      ∀ j, n ≤ j → j < st.end_.toNat → path[j]? ≠ some CHAR_FORWARD_SLASH)) :
    (basenameLoop path n st).end_ = -1 ∨
      ∀ j, (basenameLoop path n st).start ≤ j → j < (basenameLoop path n st).end_.toNat →
        path[j]? ≠ some CHAR_FORWARD_SLASH := by
  induction n generalizing st with
  | zero =>
    rcases hinv with h | ⟨_, _, h⟩
    · exact Or.inl h
    · right; intro j _ hj; exact h j (Nat.zero_le _) hj
  | succ i ih =>
    rw [basenameLoop]
    by_cases hc : path[i]? = some CHAR_FORWARD_SLASH
    · simp only [hc, if_true]
      by_cases hm : st.matchedSlash = true
      · simp only [hm, Bool.not_true, Bool.false_eq_true, if_false]
        apply ih st hstart
        rcases hinv with h | ⟨_, h, _⟩
        · exact Or.inl h
        · rw [hm] at h; exact absurd h (by decide)
      · simp only [Bool.not_eq_true] at hm
        simp only [hm, Bool.not_false, if_true]
        rcases hinv with h | ⟨_, _, h⟩
        · exact Or.inl h
        · right; intro j h1 h2; exact h j h1 h2
    · simp only [hc, if_false]
      by_cases he : st.end_ = -1
      · simp only [he, if_true]
        refine ih { start := st.start, end_ := (i : Int) + 1, matchedSlash := false } hstart ?_
        right
        refine ⟨by show (0 : Int) ≤ (i : Int) + 1; omega, rfl, ?_⟩
        intro j h1 h2
        have : j = i := by
          simp only at h2
          omega
        rw [this]; exact hc
      · simp only [he, if_false]
        apply ih st hstart
        rcases hinv with h | ⟨h0, hm, h⟩
        · exact absurd h he
        · right
          refine ⟨h0, hm, ?_⟩
          intro j h1 h2
          by_cases hji : j = i
          · rw [hji]; exact hc
          · exact h j (by omega) h2

/-- The basename never contains a separator. -/
theorem basenameStr_no_sep (p : Str) : CHAR_FORWARD_SLASH ∉ basenameStr p := by
  unfold basenameStr
  have h := basenameLoop_range p p.length { start := 0, end_ := -1, matchedSlash := true } rfl
    (Or.inl rfl)
  simp only
  split
  · simp
  · rename_i he
    rcases h with h | h
    · exact absurd h he
    · intro hmem
      obtain ⟨j, hj⟩ := List.mem_iff_getElem?.mp hmem
      simp only [slice, List.getElem?_drop, List.getElem?_take] at hj
      split at hj
      · rename_i hlt
        exact h _ (Nat.le_add_right _ _) hlt hj
      · simp at hj

/-! ## Lemmas on the derived path -/

theorem thumbSegment_clean (b : Str) (hb : CHAR_FORWARD_SLASH ∉ b) :
    cleanSegment (thumbTag ++ b) := by
  refine ⟨by simp [thumbTag], ?_, by simp [thumbTag, CHAR_DOT], by simp [thumbTag, CHAR_DOT]⟩
  intro h
  rcases List.mem_append.mp h with h | h
  · revert h; simp [thumbTag, CHAR_FORWARD_SLASH]
  · exact hb h

theorem startsWith_thumbTag_append (b : Str) : startsWith (thumbTag ++ b) thumbTag = true := by
  simp [startsWith, List.isPrefixOf_iff_prefix]

theorem dirnameLoop_no_sep (path : Str) (hs : CHAR_FORWARD_SLASH ∉ path) (n : Nat)
    (st : DirnameState) : (dirnameLoop path n st).end_ = st.end_ := by
  induction n generalizing st with
  | zero => simp [dirnameLoop]
  | succ i ih =>
    cases i with
    | zero => simp [dirnameLoop]
    | succ j =>
      have hc : (path[j + 1]? = some CHAR_FORWARD_SLASH) = False := by
        simp only [eq_iff_iff, iff_false]
        intro h
        exact hs (List.getElem?_mem h)
      rw [dirnameLoop]
      · simp only [hc, if_false]
        rw [ih]
      · simp

theorem dirnameStr_no_sep (p : Str) (hs : CHAR_FORWARD_SLASH ∉ p) : dirnameStr p = ['.'] := by
  unfold dirnameStr
  split
  · rfl
  · have h0 : ¬ (charCodeAt p 0 = some CHAR_FORWARD_SLASH) := by
      intro h
      simp [charCodeAt] at h
      exact hs (List.getElem?_mem h)
    simp [dirnameLoop_no_sep p hs, h0]

theorem normalizeStr_dot_segment (seg : Str) (hs : cleanSegment seg) :
    normalizeStr ('.' :: CHAR_FORWARD_SLASH :: seg) = seg := by
  have hlast : charCodeAt ('.' :: CHAR_FORWARD_SLASH :: seg)
      ((('.' :: CHAR_FORWARD_SLASH :: seg).length : Int) - 1) ≠ some CHAR_FORWARD_SLASH := by
    rw [charCodeAt_last]
    have := cleanSegment_getLast seg hs ['.', CHAR_FORWARD_SLASH]
    simpa using this
  have h0 : ¬ (charCodeAt ('.' :: CHAR_FORWARD_SLASH :: seg) 0 = some CHAR_FORWARD_SLASH) := by
    simp [charCodeAt, CHAR_FORWARD_SLASH]
  have hn := normalizeString_append_segment ['.'] seg true hs
  have hres : (normalizeLoop (['.'] ++ CHAR_FORWARD_SLASH :: seg) true
      (['.'] ++ [CHAR_FORWARD_SLASH]) 0 (Char.ofNat 0) normInit).2.res = [] := by
    simp [normalizeLoop, normalizeStep, normInit, isPosixPathSeparator, CHAR_FORWARD_SLASH,
      CHAR_DOT]
  rw [hres] at hn
  have hseg : ¬ (seg.length = 0) := by
    have := hs.1
    simpa using this
  have hlen : ¬ (('.' :: CHAR_FORWARD_SLASH :: seg).length = 0) := by simp
  unfold normalizeStr
  simp only [hlen, if_false, h0, hlast, decide_False, Bool.not_false, Bool.false_eq_true]
  simp only [List.singleton_append] at hn
  rw [hn]
  simp [appendSeg, hseg]

/-! ## Clean paths -/

theorem joinSegments_single (s : Str) : joinSegments [s] = s := by
  simp [joinSegments, List.intercalate]

theorem joinSegments_cons_cons (s t : Str) (ts : List Str) :
    joinSegments (s :: t :: ts) = s ++ CHAR_FORWARD_SLASH :: joinSegments (t :: ts) := by
  simp [joinSegments, List.intercalate]

theorem joinSegments_concat (segs : List Str) (s : Str) (h : segs ≠ []) :
    joinSegments (segs ++ [s]) = joinSegments segs ++ CHAR_FORWARD_SLASH :: s := by
  induction segs with
  | nil => exact absurd rfl h
  | cons a as ih =>
    cases as with
    | nil => simp [joinSegments_cons_cons, joinSegments_single]
    | cons b bs =>
      have := ih (by simp)
      simp only [List.cons_append] at this ⊢
      rw [joinSegments_cons_cons, this, joinSegments_cons_cons]
      simp

theorem cleanPath_segments (p : Str) (h : cleanPath p) :
    ∃ segs s, (∀ x ∈ segs, cleanSegment x) ∧ cleanSegment s ∧ p = joinSegments (segs ++ [s]) := by
  have hne : segments p ≠ [] := List.splitOnP_ne_nil _ _
  obtain ⟨segs, s, hs⟩ : ∃ segs s, segments p = segs ++ [s] :=
    ⟨(segments p).dropLast, (segments p).getLast hne, (List.dropLast_append_getLast hne).symm⟩
  refine ⟨segs, s, ?_, ?_, ?_⟩
  · intro x hx; exact h x (by rw [hs]; simp [hx])
  · exact h s (by rw [hs]; simp)
  · rw [← hs]; exact (List.intercalate_splitOn _ _).symm

theorem foldl_appendSeg (segs : List Str) (hseg : ∀ x ∈ segs, x ≠ []) (r : Str) (hr : r ≠ []) :
    segs.foldl appendSeg r = joinSegments (r :: segs) := by
  induction segs generalizing r with
  | nil => simp [joinSegments_single]
  | cons s ss ih =>
    have hlen : 0 < r.length := List.length_pos.mpr hr
    rw [List.foldl_cons, joinSegments_cons_cons]
    have happ : appendSeg r s = r ++ CHAR_FORWARD_SLASH :: s := by simp [appendSeg, hlen]
    rw [happ, ih (fun x hx => hseg x (by simp [hx])) _ (by simp)]
    cases ss with
    | nil => simp [joinSegments_single]
    | cons t ts => simp [joinSegments_cons_cons]

theorem normalizeLoop_clean_segments (path : Str) (allow : Bool) (segs : List Str) (s : Str)
    (hsegs : ∀ x ∈ segs, cleanSegment x) (hs : cleanSegment s) (pre : Str) (code : Char)
    (st : NormState) (hpath : path = pre ++ joinSegments (s :: segs))
    (hls : st.lastSlash = (pre.length : Int) - 1) (hd : st.dots = 0) :
    (normalizeLoop path allow (joinSegments (s :: segs)) pre.length code st).1
        ≠ CHAR_FORWARD_SLASH ∧
      (normalizeStep path allow path.length CHAR_FORWARD_SLASH
        (normalizeLoop path allow (joinSegments (s :: segs)) pre.length code st).2).res
        = (s :: segs).foldl appendSeg st.res := by
  induction segs generalizing s pre code st with
  | nil =>
    rw [joinSegments_single] at hpath ⊢
    have hslice : slice path pre.length (pre.length + s.length) = s := by
      have := slice_append_mid pre s []
      simpa [hpath] using this
    obtain ⟨h1, h2⟩ := normalizeLoop_clean_segment path allow pre.length s code st hs hls hd hslice
    have hlen : path.length = pre.length + s.length := by simp [hpath]
    refine ⟨h1, ?_⟩
    rw [hlen, h2]
    simp
  | cons t ts ih =>
    rw [joinSegments_cons_cons] at hpath ⊢
    have hslice : slice path pre.length (pre.length + s.length) = s := by
      have := slice_append_mid pre s (CHAR_FORWARD_SLASH :: joinSegments (t :: ts))
      simpa [hpath] using this
    obtain ⟨_, h2⟩ := normalizeLoop_clean_segment path allow pre.length s code st hs hls hd hslice
    rw [normalizeLoop_append]
    rw [normalizeLoop, h2]
    have hpre : pre.length + s.length + 1 = (pre ++ s ++ [CHAR_FORWARD_SLASH]).length := by
      simp [Nat.add_assoc]
    rw [hpre]
    have := ih t (fun x hx => hsegs x (by simp [hx])) (hsegs t (by simp))
      (pre ++ s ++ [CHAR_FORWARD_SLASH]) CHAR_FORWARD_SLASH
      { res := appendSeg st.res s, lastSegmentLength := s.length,
        lastSlash := ((pre.length + s.length : Nat) : Int), dots := 0 }
      (by simp [hpath])
      (by show ((pre.length + s.length : Nat) : Int)
            = ((pre ++ s ++ [CHAR_FORWARD_SLASH]).length : Int) - 1
          simp
          omega)
      rfl
    simpa using this

theorem normalizeString_clean (allow : Bool) (segs : List Str) (s : Str)
    (hsegs : ∀ x ∈ segs, cleanSegment x) (hs : cleanSegment s) :
    normalizeString (joinSegments (s :: segs)) allow = joinSegments (s :: segs) := by
  obtain ⟨h1, h2⟩ := normalizeLoop_clean_segments (joinSegments (s :: segs)) allow segs s hsegs hs
    [] (Char.ofNat 0) normInit (by simp) (by simp [normInit]) rfl
  simp only [List.length_nil] at h1 h2
  unfold normalizeString
  simp only [← normInit.eq_def, isPosixPathSeparator, h1, decide_False, Bool.false_eq_true,
    if_false, h2]
  have hs0 : appendSeg normInit.res s = s := by simp [appendSeg, normInit]
  rw [List.foldl_cons, hs0]
  exact foldl_appendSeg segs (fun x hx => (hsegs x hx).1) s hs.1

theorem joinSegments_head (segs : List Str) (s : Str) (hs : cleanSegment s) :
    ∃ c rest, joinSegments (s :: segs) = c :: rest ∧ c ≠ CHAR_FORWARD_SLASH := by
  obtain ⟨hne, hsl, _, _⟩ := hs
  cases s with
  | nil => exact absurd rfl hne
  | cons c cs =>
    have hc : c ≠ CHAR_FORWARD_SLASH := fun h => hsl (by simp [h])
    cases segs with
    | nil => exact ⟨c, cs, by simp [joinSegments_single], hc⟩
    | cons t ts => exact ⟨c, _, by rw [joinSegments_cons_cons]; rfl, hc⟩

theorem joinSegments_getLast (segs : List Str) (s : Str)
    (hsegs : ∀ x ∈ segs, cleanSegment x) (hs : cleanSegment s) :
    (joinSegments (s :: segs)).getLast? ≠ some CHAR_FORWARD_SLASH := by
  induction segs generalizing s with
  | nil => rw [joinSegments_single]; simpa using cleanSegment_getLast s hs []
  | cons t ts ih =>
    rw [joinSegments_cons_cons]
    have h := ih t (fun x hx => hsegs x (by simp [hx])) (hsegs t (by simp))
    obtain ⟨c, rest, hcr, _⟩ := joinSegments_head ts t (hsegs t (by simp))
    have hne : joinSegments (t :: ts) ≠ [] := by rw [hcr]; simp
    rw [show s ++ CHAR_FORWARD_SLASH :: joinSegments (t :: ts)
        = (s ++ [CHAR_FORWARD_SLASH]) ++ joinSegments (t :: ts) by simp,
      List.getLast?_append_of_ne_nil _ hne]
    exact h

/-- `normalize` leaves a clean path unchanged. -/
theorem normalizeStr_clean (segs : List Str) (s : Str)
    (hsegs : ∀ x ∈ segs, cleanSegment x) (hs : cleanSegment s) :
    normalizeStr (joinSegments (s :: segs)) = joinSegments (s :: segs) := by
  obtain ⟨c, rest, hcr, hc⟩ := joinSegments_head segs s hs
  have hlast : charCodeAt (joinSegments (s :: segs))
      (((joinSegments (s :: segs)).length : Int) - 1) ≠ some CHAR_FORWARD_SLASH := by
    rw [charCodeAt_last]; exact joinSegments_getLast segs s hsegs hs
  have h0 : ¬ (charCodeAt (joinSegments (s :: segs)) 0 = some CHAR_FORWARD_SLASH) := by
    rw [hcr]; simp [charCodeAt, hc]
  have hlen : ¬ ((joinSegments (s :: segs)).length = 0) := by rw [hcr]; simp
  unfold normalizeStr
  simp only [hlen, if_false, h0, hlast, decide_False, Bool.not_false, Bool.false_eq_true]
  rw [normalizeString_clean true segs s hsegs hs]
  simp [hlen]

/-! ## Lemmas on `dirname`, continued -/

theorem dirnameLoop_nonsep (path : Str) (n k : Nat) (st : DirnameState)
    (h : ∀ j, n + 1 ≤ j → j < n + 1 + k → path[j]? ≠ some CHAR_FORWARD_SLASH) :
    dirnameLoop path (n + 1 + k) st = dirnameLoop path (n + 1)
      (if k = 0 then st else { st with matchedSlash := false }) := by
  induction k generalizing st with
  | zero => simp
  | succ k ih =>
    have hk : path[n + 1 + k]? ≠ some CHAR_FORWARD_SLASH := h (n + 1 + k) (by omega) (by omega)
    have ih2 := fun st => ih st (fun j h1 h2 => h j h1 (by omega))
    have hidx : n + 1 + (k + 1) = (n + k + 1) + 1 := by omega
    have hidx2 : n + k + 1 = n + 1 + k := by omega
    rw [hidx, dirnameLoop]
    · rw [hidx2]
      simp only [hk, if_false, Nat.succ_ne_zero]
      rw [ih2]
      by_cases hk0 : k = 0 <;> simp [hk0]
    · simp

/-- The directory of `P/s`, for a non-empty `P` not starting with a separator
and a non-empty, separator-free `s`, is `P`. -/
theorem dirnameStr_append_segment (P s : Str) (c : Char) (rest : Str) (hP : P = c :: rest)
    (hc : c ≠ CHAR_FORWARD_SLASH) (hne : s ≠ []) (hs : CHAR_FORWARD_SLASH ∉ s) :
    dirnameStr (P ++ CHAR_FORWARD_SLASH :: s) = P := by
  have hslen : 0 < s.length := List.length_pos.mpr hne
  have hPlen : P.length = rest.length + 1 := by simp [hP]
  have hloop := dirnameLoop_nonsep (P ++ CHAR_FORWARD_SLASH :: s) P.length s.length
    { end_ := -1, matchedSlash := true }
    (fun j h1 _ => by
      have := getElem?_append_segment (P ++ [CHAR_FORWARD_SLASH]) s hs j (by simpa using h1)
      simpa using this)
  have hk : ¬ (s.length = 0) := by omega
  simp only [hk, if_false] at hloop
  have hlen : (P ++ CHAR_FORWARD_SLASH :: s).length = P.length + 1 + s.length := by
    simp; omega
  have hY : (P ++ CHAR_FORWARD_SLASH :: s)[rest.length + 1]? = some CHAR_FORWARD_SLASH := by
    rw [← hPlen, List.getElem?_append_right (le_refl _)]
    simp
  have hend : dirnameLoop (P ++ CHAR_FORWARD_SLASH :: s) (P.length + 1)
      { end_ := -1, matchedSlash := false } = { end_ := (P.length : Int), matchedSlash := false } := by
    rw [hPlen, dirnameLoop]
    · simp [hY]
    · simp
  have h0 : ¬ (charCodeAt (P ++ CHAR_FORWARD_SLASH :: s) 0 = some CHAR_FORWARD_SLASH) := by
    rw [hP]; simp [charCodeAt, hc]
  have hlen0 : ¬ ((P ++ CHAR_FORWARD_SLASH :: s).length = 0) := by simp
  unfold dirnameStr
  simp only [hlen0, if_false, h0, decide_False, Bool.false_eq_true, false_and]
  rw [hlen, hloop, hend]
  have hne1 : ¬ ((P.length : Int) = -1) := by omega
  simp only [hne1, if_false, Int.toNat_ofNat]
  simp [slice]

/-! ## The derived path of a clean path -/

theorem basenameStr_clean (segs : List Str) (s : Str) (hs : cleanSegment s) :
    basenameStr (joinSegments (segs ++ [s])) = s := by
  cases segs with
  | nil =>
    simpa [joinSegments_single] using basenameStr_append_segment [] s hs.1 hs.2.1 (Or.inl rfl)
  | cons a as =>
    rw [joinSegments_concat _ _ (by simp)]
    have := basenameStr_append_segment (joinSegments (a :: as) ++ [CHAR_FORWARD_SLASH]) s hs.1
      hs.2.1 (Or.inr ⟨_, rfl⟩)
    simpa using this

theorem dirnameStr_clean (a : Str) (as : List Str) (s : Str) (ha : cleanSegment a)
    (hs : cleanSegment s) :
    dirnameStr (joinSegments ((a :: as) ++ [s])) = joinSegments (a :: as) := by
  rw [joinSegments_concat _ _ (by simp)]
  obtain ⟨c, rest, hcr, hc⟩ := joinSegments_head as a ha
  exact dirnameStr_append_segment _ s c rest hcr hc hs.1 hs.2.1

theorem thumbFilePath_clean (segs : List Str) (s : Str)
    (hsegs : ∀ x ∈ segs, cleanSegment x) (hs : cleanSegment s) :
    thumbFilePath (JSVal.str (joinSegments (segs ++ [s]))) (basenameStr (joinSegments (segs ++ [s])))
      = Except.ok (joinSegments (segs ++ [thumbTag ++ s])) := by
  have ht : cleanSegment (thumbTag ++ s) := thumbSegment_clean s hs.2.1
  rw [thumbFilePath_str, basenameStr_clean segs s hs]
  cases segs with
  | nil =>
    simp only [List.nil_append, joinSegments_single]
    rw [dirnameStr_no_sep s hs.2.1]
    exact congrArg Except.ok (normalizeStr_dot_segment _ ht)
  | cons a as =>
    rw [dirnameStr_clean a as s (hsegs a (by simp)) hs, ← joinSegments_concat _ _ (by simp)]
    have := normalizeStr_clean (as ++ [thumbTag ++ s]) a
      (fun x hx => by
        rcases List.mem_append.mp hx with h | h
        · exact hsegs x (by simp [h])
        · rw [List.mem_singleton.mp h]; exact ht)
      (hsegs a (by simp))
    exact congrArg Except.ok (by simpa using this)

theorem joinSegments_injective (A B : List Str) (hA : ∀ x ∈ A, cleanSegment x)
    (hB : ∀ x ∈ B, cleanSegment x) (hAne : A ≠ []) (hBne : B ≠ [])
    (h : joinSegments A = joinSegments B) : A = B := by
  have h1 := List.splitOn_intercalate A CHAR_FORWARD_SLASH (fun l hl => (hA l hl).2.1) hAne
  have h2 := List.splitOn_intercalate B CHAR_FORWARD_SLASH (fun l hl => (hB l hl).2.1) hBne
  unfold joinSegments at h
  rw [← h1, ← h2, h]

/-! ## The handler's skip paths -/

/-- C1: an event whose content type is a string not starting with `image/` is
skipped: the handler only logs, resolves normally, and makes no download, no
resize and no upload, whatever the bucket and the object name. -/
theorem generateThumbnail_skips_non_image (env : Env) (bucket : Str) (name : JSVal) (c : Str)
    (h : startsWith c imageType = false) :
    generateThumbnail env { bucket := bucket, name := name, contentType := JSVal.str c }
      = ([Effect.log "這不是一張圖片。"], Except.ok ()) := by
  simp [generateThumbnail, callStartsWith, h]

/-- Scenario 2: a PDF is skipped. -/
theorem generateThumbnail_skips_non_image_witness :
    generateThumbnail sampleEnv
        { bucket := "b".toList, name := JSVal.str "doc/report.pdf".toList,
          contentType := JSVal.str "application/pdf".toList }
      = ([Effect.log "這不是一張圖片。"], Except.ok ()) :=
  generateThumbnail_skips_non_image sampleEnv _ _ _ (by decide)

/-- C2: an image event whose object name has a basename starting with `thumb_`
is classified as a thumbnail: the handler only logs, resolves normally, and
makes no download and no upload. -/
theorem generateThumbnail_skips_thumbnail (env : Env) (bucket p c : Str)
    (hc : startsWith c imageType = true)
    (hp : startsWith (basenameStr p) thumbTag = true) :
    generateThumbnail env { bucket := bucket, name := JSVal.str p, contentType := JSVal.str c }
      = ([Effect.log "已經是縮略圖。"], Except.ok ()) := by
  exact generateThumbnail_skips_thumbnail_aux env bucket p c hc hp

/-- Scenario 3: `photos/thumb_cat.jpg` is skipped. -/
theorem generateThumbnail_skips_thumbnail_witness :
    generateThumbnail sampleEnv
        { bucket := "b".toList, name := JSVal.str "photos/thumb_cat.jpg".toList,
          contentType := JSVal.str "image/jpeg".toList }
      = ([Effect.log "已經是縮略圖。"], Except.ok ()) :=
  generateThumbnail_skips_thumbnail sampleEnv _ _ _ (by decide) (by decide)

/-- C5: with `contentType` absent the test `contentType.startsWith("image/")`
throws: the handler rejects with a `TypeError` instead of skipping (it makes no
store call). -/
theorem generateThumbnail_absent_contentType (env : Env) (bucket : Str) (name : JSVal) :
    generateThumbnail env { bucket := bucket, name := name, contentType := JSVal.undefined }
      = ([], Except.error (JSError.typeError
          "Cannot read properties of undefined (reading 'startsWith')")) := by
  simp [generateThumbnail, callStartsWith]
/-! ## The handler's main path -/

/-- C8: on an eligible event for which download and resize succeed, the store
calls the handler makes are exactly one download of `p` from bucket `b`
followed by one upload, to the derived path in the same bucket, of the
resizer's output with the event's content type as metadata. -/
theorem generateThumbnail_store_calls (env : Env) (b p c : Str) (imageBuffer thumbnailBuffer : Bytes)
    (hc : startsWith c imageType = true)
    (hp : startsWith (basenameStr p) thumbTag = false)
    (hd : env.download b (JSVal.str p) = Except.ok imageBuffer)
    (hr : env.resize imageBuffer thumbnailOptions = Except.ok thumbnailBuffer) :
    ∃ d, thumbFilePath (JSVal.str p) (basenameStr p) = Except.ok d ∧
      (generateThumbnail env { bucket := b, name := JSVal.str p, contentType := JSVal.str c }).1.filter
          Effect.isStoreCall
        = [Effect.download b (JSVal.str p), Effect.save b d thumbnailBuffer (JSVal.str c)] := by
  refine ⟨_, thumbFilePath_str p (basenameStr p), ?_⟩
  simp only [generateThumbnail, callStartsWith, hc, basename, validateString, bind, Except.bind,
    pure, Except.pure, hp, hd, hr, thumbFilePath_str]
  cases env.save b _ thumbnailBuffer (JSVal.str c) <;> simp [Effect.isStoreCall]

/-- Scenario 1: the store calls for `photos/cat.jpg`. -/
theorem generateThumbnail_store_calls_witness :
    ∃ d, thumbFilePath (JSVal.str "photos/cat.jpg".toList) (basenameStr "photos/cat.jpg".toList)
        = Except.ok d ∧
      (generateThumbnail sampleEnv catEvent).1.filter Effect.isStoreCall
        = [Effect.download "b".toList (JSVal.str "photos/cat.jpg".toList),
           Effect.save "b".toList d [4] (JSVal.str "image/jpeg".toList)] :=
  generateThumbnail_store_calls sampleEnv _ _ _ [1, 2, 3] [4] (by decide) (by decide) rfl rfl

/-- C9: on an eligible event, when the download throws, or the download
succeeds and the resize throws, the handler rejects with that very error and
has made no upload. -/
theorem generateThumbnail_failure_propagates (env : Env) (b p c : Str) (err : JSError)
    (hc : startsWith c imageType = true)
    (hp : startsWith (basenameStr p) thumbTag = false)
    (hfail : env.download b (JSVal.str p) = Except.error err ∨
      ∃ imageBuffer, env.download b (JSVal.str p) = Except.ok imageBuffer ∧
        env.resize imageBuffer thumbnailOptions = Except.error err) :
    (generateThumbnail env { bucket := b, name := JSVal.str p, contentType := JSVal.str c }).2
        = Except.error err ∧
      ∀ eff ∈ (generateThumbnail env
          { bucket := b, name := JSVal.str p, contentType := JSVal.str c }).1,
        Effect.isSave eff = false := by
  rcases hfail with hd | ⟨imageBuffer, hd, hr⟩
  · simp [generateThumbnail, callStartsWith, hc, basename, validateString, bind, Except.bind,
      pure, Except.pure, hp, hd, Effect.isSave]
  · simp [generateThumbnail, callStartsWith, hc, basename, validateString, bind, Except.bind,
      pure, Except.pure, hp, hd, hr, Effect.isSave]

/-- Scenario 5: a failing download rejects the handler and nothing is uploaded. -/
theorem generateThumbnail_failure_propagates_witness :
    (generateThumbnail failingDownloadEnv catEvent).2
        = Except.error (JSError.libraryError 503) ∧
      ∀ eff ∈ (generateThumbnail failingDownloadEnv catEvent).1,
        Effect.isSave eff = false :=
  generateThumbnail_failure_propagates failingDownloadEnv _ _ _ _ (by decide) (by decide)
    (Or.inl rfl)

/-! ## Thumbnail geometry -/

theorem roundDiv_mul_self (k b : Nat) (hb : 0 < b) : roundDiv (k * b) b = k := by
  unfold roundDiv
  apply Nat.div_eq_of_lt_le
  · nlinarith
  · nlinarith

theorem le_roundDiv (k a b : Nat) (hb : 0 < b) (h : k * b ≤ a) : k ≤ roundDiv a b := by
  unfold roundDiv
  rw [Nat.le_div_iff_mul_le (by omega)]
  nlinarith

/-- C4 (amended): for every decoded source of `w` by `h` pixels, `w, h ≥ 1`,
the handler's resize call (200 by 200, `withoutEnlargement`, default fit
`cover`) refuses the input when it has more than `limitInputPixels` pixels.
Otherwise the output is `min w 200` by `min h 200`; a source with a side of at
most 200 is not scaled at all (both factors are 1) and only cut to the box; a
source exceeding 200 on both sides is shrunk on both axes by the one factor
`min w h / 200`, so that the resized image covers the box (both sides at least
200, one of them exactly 200), and is then cropped to 200 by 200. -/
theorem resizeGeometry_thumbnail (w h : Nat) (hw : 1 ≤ w) (hh : 1 ≤ h) :
    (limitInputPixels < w * h →
      resizeGeometry thumbnailOptions w h = Except.error "Input image exceeds pixel limit") ∧
    (w * h ≤ limitInputPixels →
      ∃ g, resizeGeometry thumbnailOptions w h = Except.ok g ∧
        g.width = min w 200 ∧ g.height = min h 200 ∧
        (w ≤ 200 ∨ h ≤ 200 →
          g.hshrink = Factor.one ∧ g.vshrink = Factor.one ∧
          g.resizedWidth = w ∧ g.resizedHeight = h) ∧
        (200 < w → 200 < h →
          g.hshrink = { num := min w h, den := 200 } ∧
          g.vshrink = { num := min w h, den := 200 } ∧
          g.resizedWidth = roundDiv (w * 200) (min w h) ∧
          g.resizedHeight = roundDiv (h * 200) (min w h) ∧
          200 ≤ g.resizedWidth ∧ 200 ≤ g.resizedHeight ∧
          (g.resizedWidth = 200 ∨ g.resizedHeight = 200))) := by
  constructor
  · intro hlim
    simp [resizeGeometry, hlim]
  intro hlim
  have hl : ¬ (w * h > limitInputPixels) := by omega
  simp only [resizeGeometry, hl, if_false, thumbnailOptions, resolveShrink, Factor.lt,
    Factor.min, Factor.max, Factor.one, Factor.shrink, Factor.isOne]
  refine ⟨_, rfl, ?_⟩
  by_cases h1 : w < h
  · have e1 : w * 200 < h * 200 := by omega
    have m1 : min w h = w := by omega
    by_cases h2 : 200 < w
    · have e2 : ¬ (w * 200 < w) := by omega
      have e3 : ¬ (h * 200 < w) := by omega
      have e4 : ¬ (w = 200) := by omega
      have r1 : roundDiv (w * 200) w = 200 := by
        rw [Nat.mul_comm]; exact roundDiv_mul_self 200 w (by omega)
      have r2 : 200 ≤ roundDiv (h * 200) w := le_roundDiv 200 _ w (by omega) (by nlinarith)
      simp [e1, h2, e2, e3, e4, r1, m1]
      refine ⟨?_, ?_, by omega, fun _ => r2⟩ <;> split_ifs <;> simp <;> omega
    · have e2 : ¬ (w < 1) := by omega
      have e3 : ¬ (h < 1) := by omega
      simp [e1, h2, e2, e3]
      constructor <;> split_ifs <;> simp <;> omega
  · have e1 : ¬ (w * 200 < h * 200) := by omega
    have m1 : min w h = h := by omega
    by_cases h2 : 200 < h
    · have e2 : ¬ (w * 200 < h) := by omega
      have e3 : ¬ (h * 200 < h) := by omega
      have e4 : ¬ (h = 200) := by omega
      have r1 : roundDiv (h * 200) h = 200 := by
        rw [Nat.mul_comm]; exact roundDiv_mul_self 200 h (by omega)
      have r2 : 200 ≤ roundDiv (w * 200) h := le_roundDiv 200 _ h (by omega) (by nlinarith)
      simp [e1, h2, e2, e3, e4, r1, m1]
      refine ⟨?_, ?_, by omega, fun _ => r2⟩ <;> split_ifs <;> simp <;> omega
    · have e2 : ¬ (w < 1) := by omega
      have e3 : ¬ (h < 1) := by omega
      simp [e1, h2, e2, e3]
      constructor <;> split_ifs <;> simp <;> omega

/-- A 4000 by 3000 source: shrunk by 3000/200 to 267 by 200, cropped to 200 by 200. -/
theorem resizeGeometry_thumbnail_witness :
    ∃ g, resizeGeometry thumbnailOptions 4000 3000 = Except.ok g ∧
      g.width = min 4000 200 ∧ g.height = min 3000 200 ∧
      (4000 ≤ 200 ∨ 3000 ≤ 200 →
        g.hshrink = Factor.one ∧ g.vshrink = Factor.one ∧
        g.resizedWidth = 4000 ∧ g.resizedHeight = 3000) ∧
      (200 < 4000 → 200 < 3000 →
        g.hshrink = { num := min 4000 3000, den := 200 } ∧
        g.vshrink = { num := min 4000 3000, den := 200 } ∧
        g.resizedWidth = roundDiv (4000 * 200) (min 4000 3000) ∧
        g.resizedHeight = roundDiv (3000 * 200) (min 4000 3000) ∧
        200 ≤ g.resizedWidth ∧ 200 ≤ g.resizedHeight ∧
        (g.resizedWidth = 200 ∨ g.resizedHeight = 200)) :=
  (resizeGeometry_thumbnail 4000 3000 (by decide) (by decide)).2 (by decide)

/-- C4 (as stated) fails: a 4000 by 3000 source is shrunk to 267 by 200 and
cropped to a 200 by 200 thumbnail, where `round(w*scale)` by `round(h*scale)`
is 200 by 150. -/
theorem resizeGeometry_not_specDims :
    resizeGeometry thumbnailOptions 4000 3000
        = Except.ok { hshrink := { num := 3000, den := 200 }, vshrink := { num := 3000, den := 200 },
                      resizedWidth := 267, resizedHeight := 200, width := 200, height := 200 } ∧
      specDims 200 200 4000 3000 = (200, 150) ∧
      (resizeGeometry thumbnailOptions 4000 3000).map (fun g => (g.width, g.height))
        ≠ Except.ok (specDims 200 200 4000 3000) := by
  refine ⟨by decide, by decide, by decide⟩
/-! ## Naming -/

/-- C7: for every eligible event (image content type, basename of `p` not
starting with `thumb_`) the derived path `d` exists, its basename starts with
`thumb_`, and the handler run on the thumbnail's own event (name `d`, same
content type) skips: it only logs, with no download and no upload. -/
theorem thumbnail_guard_stops_recursion (env : Env) (b p c : Str)
    (hc : startsWith c imageType = true)
    (_hp : startsWith (basenameStr p) thumbTag = false) :
    ∃ d, thumbFilePath (JSVal.str p) (basenameStr p) = Except.ok d ∧
      startsWith (basenameStr d) thumbTag = true ∧
      generateThumbnail env { bucket := b, name := JSVal.str d, contentType := JSVal.str c }
        = ([Effect.log "已經是縮略圖。"], Except.ok ()) := by
  have hclean := thumbSegment_clean (basenameStr p) (basenameStr_no_sep p)
  obtain ⟨X, hX, hXs⟩ := normalizeStr_append_segment (dirnameStr p) _ hclean
  have hbase : basenameStr (normalizeStr
      (dirnameStr p ++ CHAR_FORWARD_SLASH :: (thumbTag ++ basenameStr p)))
      = thumbTag ++ basenameStr p := by
    rw [hX]
    exact basenameStr_append_segment X _ hclean.1 hclean.2.1 hXs
  have hstart : startsWith (basenameStr (normalizeStr
      (dirnameStr p ++ CHAR_FORWARD_SLASH :: (thumbTag ++ basenameStr p)))) thumbTag = true := by
    rw [hbase]; exact startsWith_thumbTag_append _
  exact ⟨_, thumbFilePath_str p (basenameStr p), hstart,
    generateThumbnail_skips_thumbnail_aux env b _ c hc hstart⟩

/-- The thumbnail of `photos/cat.jpg` is skipped when its own event arrives. -/
theorem thumbnail_guard_stops_recursion_witness :
    ∃ d, thumbFilePath (JSVal.str "photos/cat.jpg".toList) (basenameStr "photos/cat.jpg".toList)
        = Except.ok d ∧
      startsWith (basenameStr d) thumbTag = true ∧
      generateThumbnail sampleEnv
          { bucket := "b".toList, name := JSVal.str d,
            contentType := JSVal.str "image/jpeg".toList }
        = ([Effect.log "已經是縮略圖。"], Except.ok ()) :=
  thumbnail_guard_stops_recursion sampleEnv _ _ _ (by decide) (by decide)

/-- C10: the naming logic is total on strings: for every string `p`,
`path.basename(p)` returns, the `thumb_` test is a boolean, and
`path.join(path.dirname(p), "thumb_" + basename)` returns; when `p` contains no
`/` the derived path is `"thumb_" + p`. -/
theorem naming_total (p : Str) :
    ∃ fileName d, basename (JSVal.str p) = Except.ok fileName ∧
      thumbFilePath (JSVal.str p) fileName = Except.ok d ∧
      (CHAR_FORWARD_SLASH ∉ p → d = thumbTag ++ p) := by
  refine ⟨basenameStr p, _, rfl, thumbFilePath_str p (basenameStr p), ?_⟩
  intro hs
  rw [basenameStr_no_sep_path p hs, dirnameStr_no_sep p hs]
  exact normalizeStr_dot_segment _ (thumbSegment_clean p hs)

/-- The naming of `cat.jpg`. -/
theorem naming_total_witness :
    ∃ fileName d, basename (JSVal.str "cat.jpg".toList) = Except.ok fileName ∧
      thumbFilePath (JSVal.str "cat.jpg".toList) fileName = Except.ok d ∧
      (CHAR_FORWARD_SLASH ∉ "cat.jpg".toList → d = thumbTag ++ "cat.jpg".toList) :=
  naming_total "cat.jpg".toList
/-! ## The derived path -/

/-- C3 (amended): for every string `p` the path the handler uploads to is
`path.normalize(dirname(p) + "/" + "thumb_" + basename(p))`; when `p` is a
clean path with a directory part (it contains `/`, and every segment is
non-empty and neither `.` nor `..`) this is the plain concatenation
`dirname(p) + "/" + "thumb_" + basename(p)`. -/
theorem thumbFilePath_normalized (p : Str) :
    thumbFilePath (JSVal.str p) (basenameStr p)
        = Except.ok (normalizeStr (dirnameStr p ++ CHAR_FORWARD_SLASH :: (thumbTag ++ basenameStr p))) ∧
      (cleanPath p → CHAR_FORWARD_SLASH ∈ p →
        thumbFilePath (JSVal.str p) (basenameStr p)
          = Except.ok (dirnameStr p ++ CHAR_FORWARD_SLASH :: (thumbTag ++ basenameStr p))) := by
  refine ⟨thumbFilePath_str p (basenameStr p), ?_⟩
  intro hclean hsep
  obtain ⟨segs, s, hsegs, hs, rfl⟩ := cleanPath_segments p hclean
  cases segs with
  | nil =>
    rw [List.nil_append, joinSegments_single] at hsep
    exact absurd hsep hs.2.1
  | cons a as =>
    rw [thumbFilePath_clean _ s hsegs hs, basenameStr_clean _ s hs,
      dirnameStr_clean a as s (hsegs a (by simp)) hs, joinSegments_concat _ _ (by simp)]

/-- Scenario 1: `photos/cat.jpg` gives `photos/thumb_cat.jpg`. -/
theorem thumbFilePath_normalized_witness :
    thumbFilePath (JSVal.str "photos/cat.jpg".toList) (basenameStr "photos/cat.jpg".toList)
      = Except.ok "photos/thumb_cat.jpg".toList :=
  (thumbFilePath_normalized "photos/cat.jpg".toList).2 (by decide) (by decide)

/-- C3 (as stated) fails: `cat.jpg` is eligible and has no directory; the
handler uploads to `thumb_cat.jpg`, while `dirname(p) + "/" + "thumb_" +
basename(p)` is `./thumb_cat.jpg`. -/
theorem thumbFilePath_not_concatenation :
    startsWith (basenameStr "cat.jpg".toList) thumbTag = false ∧
      thumbFilePath (JSVal.str "cat.jpg".toList) (basenameStr "cat.jpg".toList)
        = Except.ok "thumb_cat.jpg".toList ∧
      dirnameStr "cat.jpg".toList ++ CHAR_FORWARD_SLASH :: (thumbTag ++ basenameStr "cat.jpg".toList)
        = "./thumb_cat.jpg".toList ∧
      thumbFilePath (JSVal.str "cat.jpg".toList) (basenameStr "cat.jpg".toList)
        ≠ Except.ok (dirnameStr "cat.jpg".toList
            ++ CHAR_FORWARD_SLASH :: (thumbTag ++ basenameStr "cat.jpg".toList)) := by
  refine ⟨by decide, by decide, by decide, by decide⟩

/-- C6 (amended): the derived path is injective on clean paths: two distinct
paths whose segments are all non-empty and neither `.` nor `..` have distinct
thumbnail paths. -/
theorem thumbFilePath_injective_on_clean (p q : Str) (hp : cleanPath p) (hq : cleanPath q)
    (hne : p ≠ q) :
    thumbFilePath (JSVal.str p) (basenameStr p) ≠ thumbFilePath (JSVal.str q) (basenameStr q) := by
  obtain ⟨A, s, hA, hs, rfl⟩ := cleanPath_segments p hp
  obtain ⟨B, t, hB, ht, rfl⟩ := cleanPath_segments q hq
  rw [thumbFilePath_clean A s hA hs, thumbFilePath_clean B t hB ht]
  intro h
  apply hne
  have hclean : ∀ (C : List Str) (u : Str), (∀ x ∈ C, cleanSegment x) → cleanSegment u →
      ∀ x ∈ C ++ [thumbTag ++ u], cleanSegment x := by
    intro C u hC hu x hx
    rcases List.mem_append.mp hx with h | h
    · exact hC x h
    · rw [List.mem_singleton.mp h]; exact thumbSegment_clean u hu.2.1
  have hlist := joinSegments_injective _ _ (hclean A s hA hs) (hclean B t hB ht) (by simp)
    (by simp) (Except.ok.inj h)
  obtain ⟨hAB, hst⟩ := List.append_inj' hlist rfl
  have hst2 : s = t := List.append_cancel_left (List.singleton_inj.mp hst)
  rw [hAB, hst2]

/-- `a/b` and `a/c` get distinct thumbnail paths. -/
theorem thumbFilePath_injective_on_clean_witness :
    thumbFilePath (JSVal.str "a/b".toList) (basenameStr "a/b".toList)
      ≠ thumbFilePath (JSVal.str "a/c".toList) (basenameStr "a/c".toList) :=
  thumbFilePath_injective_on_clean "a/b".toList "a/c".toList (by decide) (by decide) (by decide)

/-- C6 (as stated) fails: `a/b` and `a//b` are distinct, both have the
basename `b` (not a thumbnail), and both are given the thumbnail path
`a/thumb_b`. -/
theorem thumbFilePath_not_injective :
    "a/b".toList ≠ "a//b".toList ∧
      startsWith (basenameStr "a/b".toList) thumbTag = false ∧
      startsWith (basenameStr "a//b".toList) thumbTag = false ∧
      thumbFilePath (JSVal.str "a/b".toList) (basenameStr "a/b".toList)
        = Except.ok "a/thumb_b".toList ∧
      thumbFilePath (JSVal.str "a//b".toList) (basenameStr "a//b".toList)
        = Except.ok "a/thumb_b".toList ∧
      thumbFilePath (JSVal.str "a/b".toList) (basenameStr "a/b".toList)
        = thumbFilePath (JSVal.str "a//b".toList) (basenameStr "a//b".toList) := by
  have h1 : thumbFilePath (JSVal.str "a/b".toList) (basenameStr "a/b".toList)
      = Except.ok "a/thumb_b".toList := by decide
  have h2 : thumbFilePath (JSVal.str "a//b".toList) (basenameStr "a//b".toList)
      = Except.ok "a/thumb_b".toList := by decide
  exact ⟨by decide, by decide, by decide, h1, h2, h1.trans h2.symm⟩
end Thumbnail
